import Mathlib

/-!
Shallow embedding of the waveform-processing core of `src/P4.py` (an
end-to-end BPSK / 16-QAM passband simulation) together with theorems
settling the spec claims about it.

Conventions of the embedding:
* NumPy arrays of floats are modelled as `List ℝ`; NumPy integer arrays of
  bits as `List ℕ` (or `List ℤ` where the script subtracts them).
* Python run-time failures (unbound names, out-of-range indexing, broadcast
  mismatches, division by zero) are modelled by `Except PyError`.
* The Gaussian draw `np.random.normal(0, σ, n)` is modelled as `σ · g k`
  for an abstract per-sample unit draw `g : ℕ → ℝ` supplied as a parameter;
  the zero-noise channel is the instance `g = fun _ => 0`.
-/

namespace P4

/-- Run-time errors of the Python interpreter that the source can raise:
referencing an unbound name, indexing past the end of an array, assigning an
`mpp`-sample array into a shorter (clipped) slice, and dividing by zero. -/
inductive PyError where
  | nameError (missing : String)
  | indexError
  | valueError
  | zeroDivisionError
deriving DecidableEq, Repr

/-- The (I, Q) amplitude pair selected by the conditional chain of
`modulador_16QAM` (src/P4.py lines 210–353) for the 4 bits of one symbol.
Each branch is transcribed literally from the source; in particular every
condition tests the third bit `b2` twice (`bits[i+2]`) and never tests the
fourth bit `b3` (`bits[i+3]`), exactly as the source does.  The first
component is the factor applied to `portadora_cos`, the second the factor
applied to `portadora_sen`. -/
def qamBranch (b0 b1 b2 b3 : ℕ) : ℤ × ℤ :=
  if b0 = 0 ∧ b1 = 0 ∧ b2 = 0 ∧ b2 = 0 then (-3, 3)
  else if b0 = 0 ∧ b1 = 0 ∧ b2 = 0 ∧ b2 = 1 then (-3, 1)
  else if b0 = 0 ∧ b1 = 0 ∧ b2 = 1 ∧ b2 = 0 then (-3, -3)
  else if b0 = 0 ∧ b1 = 0 ∧ b2 = 1 ∧ b2 = 1 then (-3, -1)
  else if b0 = 0 ∧ b1 = 1 ∧ b2 = 0 ∧ b2 = 0 then (-1, 3)
  else if b0 = 0 ∧ b1 = 1 ∧ b2 = 0 ∧ b2 = 1 then (-1, 1)
  else if b0 = 0 ∧ b1 = 1 ∧ b2 = 1 ∧ b2 = 0 then (-1, -3)
  else if b0 = 0 ∧ b1 = 1 ∧ b2 = 1 ∧ b2 = 1 then (-1, -1)
  else if b0 = 1 ∧ b1 = 0 ∧ b2 = 0 ∧ b2 = 0 then (3, 3)
  else if b0 = 1 ∧ b1 = 0 ∧ b2 = 0 ∧ b2 = 1 then (3, 1)
  else if b0 = 1 ∧ b1 = 0 ∧ b2 = 1 ∧ b2 = 0 then (3, -3)
  else if b0 = 1 ∧ b1 = 0 ∧ b2 = 1 ∧ b2 = 1 then (3, -1)
  else if b0 = 1 ∧ b1 = 1 ∧ b2 = 0 ∧ b2 = 0 then (1, 3)
  else if b0 = 1 ∧ b1 = 1 ∧ b2 = 0 ∧ b2 = 1 then (1, 1)
  else if b0 = 1 ∧ b1 = 1 ∧ b2 = 1 ∧ b2 = 0 then (1, -3)
  else (1, -1)

/-- One iteration (chunk starting at bit index `i`, with `len` total bits,
`i < len`) of the symbol loop of `modulador_16QAM`, which runs
`for i in range(0, len(bits), 4)`.  Derivation from the source, for bit
values in {0,1} (the domain produced by `rgb_a_bit`):
* `i + 3 < len` (full chunk): the conditional chain evaluates without
  index errors (it only reads offsets `i`..`i+2`), some branch (or the
  `else`) runs, its four `senal_Tx` slice writes are in range, and the
  branch then stores into `moduladora` — a name never assigned in the
  function or at module scope of src/P4.py — raising `NameError`.
* `i + 3 = len` (three trailing bits): the chain only reads offsets
  `i`..`i+2`, which exist, so a branch is selected; its fourth
  `senal_Tx[(i+3)*mpp : (i+4)*mpp]` write assigns an `mpp`-sample array
  into an empty clipped slice, raising a broadcast `ValueError`.
* `len - i ∈ {1, 2}` (one or two trailing bits): the condition matching
  the available leading bits probes a missing offset (`i+1` or `i+2`),
  raising `IndexError`. -/
def qamChunkStep (len i : ℕ) : Except PyError Unit :=
  if i + 3 < len then .error (.nameError "moduladora")
  else if i + 3 = len then .error .valueError
  else .error .indexError

/-- The symbol loop `for i in range(0, len(bits), 4)` of `modulador_16QAM`:
iterate `qamChunkStep` over `i = 0, 4, 8, …` (`⌈len/4⌉` iterations, as
`range(0, len, 4)` has), stopping at the first raised error. -/
def qamLoop (len : ℕ) : Except PyError Unit :=
  (List.range' 0 ((len + 3) / 4) 4).foldlM (fun _ i => qamChunkStep len i) ()

/-- Control-flow model of `modulador_16QAM bits fc mpp`
(src/P4.py lines 175–363).  The symbol loop is `qamLoop`; if the loop were
to finish (possible only for `bits = []`), the power line
`Pm_senal_Tx = (1/(N*Tc)) * np.trapz(...)` divides by zero for `N = 0`,
and otherwise the `return` statement itself reads the never-assigned name
`moduladora`.  Hence no call produces an `.ok` value; the pure content of
the loop's `senal_Tx` writes is modelled separately by `senal_Tx_16QAM`. -/
def modulador_16QAM_E (bits : List ℕ) (fc : ℝ) (mpp : ℕ) :
    Except PyError (List ℝ × ℝ × List ℝ × List ℝ) :=
  qamLoop bits.length >>= fun _ =>
    if bits.length = 0 then .error .zeroDivisionError
    else .error (.nameError "moduladora")

/-- Model of `demodulador_16QAM senal_Rx portadora_16QAM mpp`
(src/P4.py lines 366–404).  The body computes `M = len(senal_Rx)` and
`bits_chunk = int(M / mpp)` — a `ZeroDivisionError` when `mpp = 0` —
then initialises `bits_Rx`, `senal_demodulada` and `Es`, and enters
`for i in range(N)` where the name `N` is assigned neither in the function
(its local count is `bits_chunk`) nor at module scope of src/P4.py, so the
loop header raises `NameError` before any bit is recovered. -/
def demodulador_16QAM_E (senal_Rx portadora_16QAM : List ℝ) (mpp : ℕ) :
    Except PyError (List ℕ × List ℝ) :=
  let M := senal_Rx.length
  if mpp = 0 then .error .zeroDivisionError
  else
    let _bits_chunk := M / mpp
    .error (.nameError "N")

/-- `errores_16QAM = sum(abs(bits_TX - bits_RX))` (src/P4.py line 452),
as a function of the two bit vectors (NumPy subtracts and sums
elementwise over equal-length integer arrays). -/
def errores_16QAM (bits_TX bits_RX : List ℤ) : ℤ :=
  (List.zipWith (fun a b => |a - b|) bits_TX bits_RX).sum

/-- `BER_16QAM = errores_16QAM / len(bits_TX)` (src/P4.py line 453),
as an exact rational. -/
def BER_16QAM (bits_TX bits_RX : List ℤ) : ℚ :=
  (errores_16QAM bits_TX bits_RX : ℚ) / (bits_TX.length : ℚ)

/-- The number of positions where two sequences differ (Hamming distance),
written from the spec's words for comparison with `errores_16QAM`. -/
def hammingDist (tx rx : List ℤ) : ℕ :=
  (tx.zip rx).countP fun p => decide (p.1 ≠ p.2)

/-- `np.linspace(a, b, n)` with NumPy's default `endpoint=True`: `n` samples
`a + j·(b−a)/(n−1)` for `j = 0, …, n−1`; the endpoint `b` is INCLUDED as the
last sample (for `n = 1` the single sample is `a`, matching NumPy). -/
noncomputable def linspace (a b : ℝ) (n : ℕ) : List ℝ :=
  (List.range n).map fun (j : ℕ) => a + (j : ℝ) * ((b - a) / ((n : ℝ) - 1))

/-- `t_periodo = np.linspace(0, Tc, mpp)` with `Tc = 1/fc`
(src/P4.py lines 62–63 and 190–191). -/
noncomputable def t_periodo (fc : ℝ) (mpp : ℕ) : List ℝ :=
  linspace 0 (1 / fc) mpp

/-- `portadora = np.sin(2*np.pi*fc*t_periodo)` (src/P4.py line 64),
the BPSK carrier. -/
noncomputable def portadora (fc : ℝ) (mpp : ℕ) : List ℝ :=
  (t_periodo fc mpp).map fun t => Real.sin (2 * Real.pi * fc * t)

/-- `portadora_cos = np.cos(2*np.pi*fc*t_periodo)` (src/P4.py line 192). -/
noncomputable def portadora_cos (fc : ℝ) (mpp : ℕ) : List ℝ :=
  (t_periodo fc mpp).map fun t => Real.cos (2 * Real.pi * fc * t)

/-- `portadora_sen = np.sin(2*np.pi*fc*t_periodo)` (src/P4.py line 193). -/
noncomputable def portadora_sen (fc : ℝ) (mpp : ℕ) : List ℝ :=
  (t_periodo fc mpp).map fun t => Real.sin (2 * Real.pi * fc * t)

/-- `np.trapz(y, x)`: trapezoidal numerical integration,
`∑ (x[k+1] − x[k]) · (y[k] + y[k+1]) / 2`. -/
noncomputable def trapz (y x : List ℝ) : ℝ :=
  ∑ k ∈ Finset.range (y.length - 1),
    (x.getD (k + 1) 0 - x.getD k 0) * (y.getD k 0 + y.getD (k + 1) 0) / 2

/-- The BPSK modulator `modulador bits fc mpp` (src/P4.py lines 46–83),
returning `(senal_Tx, P_senal_Tx, portadora, moduladora)`.  The loop
`for i, bit in enumerate(bits)` writes carrier copies into the disjoint
covering slices `senal_Tx[i*mpp : (i+1)*mpp]` (`portadora` for `bit == 1`,
`portadora * -1` otherwise) and the raw bit value into the same slice of
`moduladora`; the concatenation of the per-bit blocks is therefore the
final array. -/
noncomputable def modulador (bits : List ℕ) (fc : ℝ) (mpp : ℕ) :
    List ℝ × ℝ × List ℝ × List ℝ :=
  let N := bits.length
  let Tc := 1 / fc
  let port := portadora fc mpp
  let t_simulacion := linspace 0 (N * Tc) (N * mpp)
  let senal_Tx := bits.flatMap fun bit =>
    if bit = 1 then port else port.map fun x => x * (-1)
  let moduladora := bits.flatMap fun bit =>
    List.replicate mpp (if bit = 1 then (1 : ℝ) else 0)
  let P_senal_Tx := (1 / (N * Tc)) * trapz (senal_Tx.map fun x => x ^ 2) t_simulacion
  (senal_Tx, P_senal_Tx, port, moduladora)

/-- The AWGN channel `canal_ruidoso senal_Tx Pm SNR` (src/P4.py lines
85–107): `Pn = Pm / 10**(SNR/10)`, then
`ruido = np.random.normal(0, sqrt(Pn), senal_Tx.shape)` and
`senal_Rx = senal_Tx + ruido`.  The random draw is modelled by the
abstract per-sample unit-variance stream `g`: drawing from
`normal(0, σ)` is `σ · g k`, so every noise sample has standard deviation
`sqrt(Pn)`, i.e. variance `Pn`.  Zero noise is `g = fun _ => 0`. -/
noncomputable def canal_ruidoso (senal_Tx : List ℝ) (Pm SNR : ℝ)
    (g : ℕ → ℝ) : List ℝ :=
  let Pn := Pm / (10 : ℝ) ^ (SNR / 10)
  let ruido := (List.range senal_Tx.length).map fun k => Real.sqrt Pn * g k
  List.zipWith (· + ·) senal_Tx ruido

/-- `Ep` of symbol interval `i` in `demodulador` (src/P4.py lines 137–139):
the inner product of `senal_Rx[i*mpp : (i+1)*mpp]` with the reference
carrier. -/
noncomputable def Ep (senal_Rx portadora : List ℝ) (mpp i : ℕ) : ℝ :=
  ∑ r ∈ Finset.range mpp, senal_Rx.getD (i * mpp + r) 0 * portadora.getD r 0

/-- The BPSK demodulator `demodulador senal_Rx portadora mpp` (src/P4.py
lines 109–148), bit vector output: `N = int(M / mpp)` symbol intervals,
each decided by `bits_Rx[i] = 1 if Ep > 0 else 0`.  (The code also computes
an unused `Es` and returns a diagnostic `senal_demodulada`, which no claim
concerns and which does not influence the bits.) -/
noncomputable def demodulador (senal_Rx portadora : List ℝ) (mpp : ℕ) :
    List ℕ :=
  (List.range (senal_Rx.length / mpp)).map fun i =>
    if 0 < Ep senal_Rx portadora mpp i then 1 else 0

/-- The 4-bit chunks read by `for i in range(0, len(bits), 4)` together
with the offsets `bits[i]`, `bits[i+1]`, `bits[i+2]`, `bits[i+3]`. -/
def chunk4 : List ℕ → List (ℕ × ℕ × ℕ × ℕ)
  | b0 :: b1 :: b2 :: b3 :: rest => (b0, b1, b2, b3) :: chunk4 rest
  | _ => []

/-- The `senal_Tx` samples one branch of `modulador_16QAM` writes for the
symbol block `[i*mpp, (i+4)*mpp)` (src/P4.py lines 210–353): the first two
`mpp`-sample slices get `portadora_cos` scaled by the branch's cosine
factor, the last two get `portadora_sen` scaled by the branch's sine
factor — cosine-only then sine-only sub-blocks, not a superposition. -/
noncomputable def qamSymbolWave (fc : ℝ) (mpp : ℕ) (b0 b1 b2 b3 : ℕ) :
    List ℝ :=
  let c := ((qamBranch b0 b1 b2 b3).1 : ℝ)
  let s := ((qamBranch b0 b1 b2 b3).2 : ℝ)
  (portadora_cos fc mpp).map (fun x => x * c)
    ++ (portadora_cos fc mpp).map (fun x => x * c)
    ++ (portadora_sen fc mpp).map (fun x => x * s)
    ++ (portadora_sen fc mpp).map (fun x => x * s)

/-- The transmit waveform assembled by the `senal_Tx` slice writes of
`modulador_16QAM`'s symbol loop (src/P4.py lines 209–353), for a bit count
that is a multiple of 4: the per-symbol blocks are disjoint and cover the
array, so the result is their concatenation.  (In the full function these
writes are followed by the `moduladora` store that raises `NameError`,
modelled by `modulador_16QAM_E`; this definition isolates the waveform
content of the conditional chain, which claims C1 and C3 are about.) -/
noncomputable def senal_Tx_16QAM (bits : List ℕ) (fc : ℝ) (mpp : ℕ) :
    List ℝ :=
  (chunk4 bits).flatMap fun q => qamSymbolWave fc mpp q.1 q.2.1 q.2.2.1 q.2.2.2

lemma errores_cons (a b : ℤ) (tx rx : List ℤ) :
    errores_16QAM (a :: tx) (b :: rx) = |a - b| + errores_16QAM tx rx := rfl

lemma hamming_cons (a b : ℤ) (tx rx : List ℤ) :
    hammingDist (a :: tx) (b :: rx)
      = hammingDist tx rx + if a ≠ b then 1 else 0 := by
  simp [hammingDist, List.countP_cons]

lemma errores_eq_hamming : ∀ (tx rx : List ℤ),
    (∀ x ∈ tx, x = 0 ∨ x = 1) → (∀ x ∈ rx, x = 0 ∨ x = 1) →
    errores_16QAM tx rx = hammingDist tx rx := by
  intro tx
  induction tx with
  | nil => intro rx _ _; simp [errores_16QAM, hammingDist]
  | cons a tx ih =>
    intro rx htx hrx
    cases rx with
    | nil => simp [errores_16QAM, hammingDist]
    | cons b rx =>
      have ha : a = 0 ∨ a = 1 := htx a (by simp)
      have hb : b = 0 ∨ b = 1 := hrx b (by simp)
      have htail := ih rx (fun x hx => htx x (by simp [hx]))
        (fun x hx => hrx x (by simp [hx]))
      rw [errores_cons, hamming_cons, Nat.cast_add, htail]
      rcases ha with ha | ha <;> rcases hb with hb | hb <;>
        subst ha <;> subst hb <;> simp [add_comm]

lemma errores_self : ∀ tx : List ℤ, errores_16QAM tx tx = 0 := by
  intro tx
  induction tx with
  | nil => simp [errores_16QAM]
  | cons a tx ih => rw [errores_cons, ih]; simp

lemma errores_compl : ∀ (tx rx : List ℤ), tx.length = rx.length →
    (∀ x ∈ tx, x = 0 ∨ x = 1) → (∀ x ∈ rx, x = 0 ∨ x = 1) →
    (∀ p ∈ tx.zip rx, p.1 + p.2 = 1) →
    errores_16QAM tx rx = tx.length := by
  intro tx
  induction tx with
  | nil => intro rx _ _ _ _; simp [errores_16QAM]
  | cons a tx ih =>
    intro rx hlen htx hrx hc
    cases rx with
    | nil => simp at hlen
    | cons b rx =>
      have ha : a = 0 ∨ a = 1 := htx a (by simp)
      have hb : b = 0 ∨ b = 1 := hrx b (by simp)
      have hab : a + b = 1 := hc (a, b) (by simp)
      have htail := ih rx (by simpa using hlen)
        (fun x hx => htx x (by simp [hx]))
        (fun x hx => hrx x (by simp [hx]))
        (fun p hp => hc p (by simp [hp]))
      rw [errores_cons, htail]
      rcases ha with ha | ha <;> rcases hb with hb | hb <;>
        subst ha <;> subst hb <;> simp at hab ⊢ <;> push_cast <;> ring

lemma error_bind {ε α β : Type} (e : ε) (g : α → Except ε β) :
    (Except.error e >>= g) = Except.error e := rfl

lemma getD_map {α β : Type} (l : List α) (f : α → β) (i : ℕ)
    (h : i < l.length) (d : α) (d2 : β) :
    (l.map f).getD i d2 = f (l.getD i d) := by
  rw [List.getD_eq_getElem l d h, List.getD_eq_getElem _ d2 (by simpa)]
  simp

lemma getD_range (n i : ℕ) (h : i < n) (d : ℕ) :
    (List.range n).getD i d = i := by
  rw [List.getD_eq_getElem _ d (by simpa)]
  simp

lemma getD_zipWith_add (l1 l2 : List ℝ) (k : ℕ)
    (h1 : k < l1.length) (h2 : k < l2.length) :
    (List.zipWith (· + ·) l1 l2).getD k 0 = l1.getD k 0 + l2.getD k 0 := by
  rw [List.getD_eq_getElem _ 0 (by simp; omega), List.getElem_zipWith,
    List.getD_eq_getElem _ 0 h1, List.getD_eq_getElem _ 0 h2]

lemma linspace_length (a b : ℝ) (n : ℕ) : (linspace a b n).length = n := by
  simp [linspace]

lemma linspace_getD (a b : ℝ) (n j : ℕ) (h : j < n) :
    (linspace a b n).getD j 0 = a + j * ((b - a) / ((n : ℝ) - 1)) := by
  unfold linspace
  rw [getD_map _ _ _ (by simpa) 0, getD_range n j h]

lemma t_periodo_length (fc : ℝ) (mpp : ℕ) :
    (t_periodo fc mpp).length = mpp := by
  simp [t_periodo, linspace_length]

lemma portadora_length (fc : ℝ) (mpp : ℕ) :
    (portadora fc mpp).length = mpp := by
  simp [portadora, t_periodo_length]

lemma portadora_getD (fc : ℝ) (mpp j : ℕ) (hj : j < mpp) :
    (portadora fc mpp).getD j 0
      = Real.sin (2 * Real.pi * fc * (0 + j * ((1 / fc - 0) / ((mpp : ℝ) - 1)))) := by
  unfold portadora
  rw [getD_map _ _ _ (by simp [t_periodo_length]; omega) 0,
    t_periodo, linspace_getD _ _ _ _ hj]

/-- C1: the constellation mapping implemented by the conditional chain of
`modulador_16QAM` is NOT a bijection: the two distinct 4-bit patterns
`0000` and `0001` select the same (I, Q) pair `(-3, 3)`, because every
condition of the chain tests the third bit twice and never the fourth. -/
theorem C1_constellation_not_bijective :
    qamBranch 0 0 0 0 = (-3, 3) ∧ qamBranch 0 0 0 1 = (-3, 3) ∧
    (0, 0, 0, 0) ≠ ((0, 0, 0, 1) : ℕ × ℕ × ℕ × ℕ) := by
  refine ⟨by decide, by decide, by decide⟩

/-- C7: a bit sequence of length 5 (not a multiple of 4) makes
`modulador_16QAM` fail — but with the unbound-name `NameError` on
`moduladora` raised inside the first symbol's branch, not with an
input-validation `InvalidInput` error; the identical error is raised for
the valid length-4 input, so the failure is unrelated to the length check
the spec prescribes.  No waveform is produced in either case. -/
theorem C7_nonmultiple_of_4_no_validation :
    modulador_16QAM_E [0, 1, 0, 1, 1] 1 2 = .error (.nameError "moduladora") ∧
    modulador_16QAM_E [0, 0, 0, 0] 1 2 = .error (.nameError "moduladora") := by
  constructor <;> rfl

/-- C9: for every non-empty bit sequence whose length is a multiple of 4
(and any carrier parameters as in the claim), `modulador_16QAM` never
returns: the first symbol's branch stores into the unbound name
`moduladora` and raises `NameError` before any output tuple is produced. -/
theorem C9_modulador_16QAM_never_returns (bits : List ℕ) (fc : ℝ) (mpp : ℕ)
    (hbits : ∀ b ∈ bits, b = 0 ∨ b = 1) (h4 : 4 ∣ bits.length)
    (hne : bits ≠ []) (hfc : 0 < fc) (hmpp : 2 ≤ mpp) :
    modulador_16QAM_E bits fc mpp = .error (.nameError "moduladora") := by
  have hlen : 4 ≤ bits.length := by
    rcases h4 with ⟨k, hk⟩
    rcases Nat.eq_zero_or_pos k with hk0 | hk0
    · exfalso; apply hne; rw [← List.length_eq_zero]; omega
    · omega
  obtain ⟨m, hm⟩ : ∃ m, (bits.length + 3) / 4 = m + 1 :=
    ⟨(bits.length + 3) / 4 - 1, by omega⟩
  unfold modulador_16QAM_E qamLoop
  rw [hm, List.range'_succ]
  have hstep : qamChunkStep bits.length 0 = .error (.nameError "moduladora") := by
    unfold qamChunkStep
    rw [if_pos (by omega)]
  simp [hstep, error_bind]

/-- Closed witness for `C9_modulador_16QAM_never_returns` at the spec's
scenario bits `[1,0,1,1]`, `fc = 5000`, `mpp = 20`. -/
theorem C9_modulador_16QAM_never_returns_witness :
    modulador_16QAM_E [1, 0, 1, 1] 5000 20 = .error (.nameError "moduladora") :=
  C9_modulador_16QAM_never_returns [1, 0, 1, 1] 5000 20 (by decide)
    (by decide) (by decide) (by norm_num) (by norm_num)

/-- C10 counterexample to "every mpp": at `mpp = 0` the line
`bits_chunk = int(M / mpp)` of `demodulador_16QAM` divides by zero, so the
call raises `ZeroDivisionError`, not the claimed unbound-variable
`NameError`. -/
theorem C10_mpp_zero_division :
    demodulador_16QAM_E [] [] 0 = .error .zeroDivisionError ∧
    PyError.zeroDivisionError ≠ PyError.nameError "N" := by
  exact ⟨rfl, by decide⟩

/-- C10 amended: for every received waveform, carrier, and `mpp ≥ 1`,
`demodulador_16QAM` raises `NameError` at its loop header
`for i in range(N)` — the name `N` is unbound in its scope — before
producing any recovered bits. -/
theorem C10_demod_16QAM_nameerror (senal_Rx portadora_16QAM : List ℝ)
    (mpp : ℕ) (hmpp : 0 < mpp) :
    demodulador_16QAM_E senal_Rx portadora_16QAM mpp = .error (.nameError "N") := by
  unfold demodulador_16QAM_E
  rw [if_neg (by omega)]

/-- Closed witness for `C10_demod_16QAM_nameerror`. -/
theorem C10_demod_16QAM_nameerror_witness :
    demodulador_16QAM_E [0] [0] 20 = .error (.nameError "N") :=
  C10_demod_16QAM_nameerror [0] [0] 20 (by norm_num)

/-- C8: the bit-error evaluation of src/P4.py lines 452–453 computes the
Hamming distance between equal-length binary sequences and divides by the
length; identical sequences give 0 errors and BER 0, fully complementary
ones give `length` errors and BER 1. -/
theorem C8_bit_error_evaluation (tx rx : List ℤ)
    (hlen : tx.length = rx.length)
    (htx : ∀ x ∈ tx, x = 0 ∨ x = 1) (hrx : ∀ x ∈ rx, x = 0 ∨ x = 1) :
    errores_16QAM tx rx = hammingDist tx rx ∧
    BER_16QAM tx rx = (hammingDist tx rx : ℚ) / (tx.length : ℚ) ∧
    (tx = rx → errores_16QAM tx rx = 0 ∧ BER_16QAM tx rx = 0) ∧
    ((∀ p ∈ tx.zip rx, p.1 + p.2 = 1) →
      errores_16QAM tx rx = tx.length ∧
      (0 < tx.length → BER_16QAM tx rx = 1)) := by
  have hmain := errores_eq_hamming tx rx htx hrx
  refine ⟨hmain, ?_, ?_, ?_⟩
  · rw [BER_16QAM, hmain]; push_cast; ring
  · intro h
    subst h
    refine ⟨errores_self tx, ?_⟩
    rw [BER_16QAM, errores_self tx]
    simp
  · intro hc
    have hcomp := errores_compl tx rx hlen htx hrx hc
    refine ⟨hcomp, fun hpos => ?_⟩
    have hne : (tx.length : ℚ) ≠ 0 := Nat.cast_ne_zero.mpr (by omega)
    rw [BER_16QAM, hcomp]
    push_cast
    exact div_self hne

/-- Closed witness for `C8_bit_error_evaluation`. -/
theorem C8_bit_error_evaluation_witness :
    errores_16QAM [0, 1, 1] [0, 0, 1] = hammingDist [0, 1, 1] [0, 0, 1] :=
  (C8_bit_error_evaluation [0, 1, 1] [0, 0, 1] (by decide)
    (by decide) (by decide)).1

/-- C6 counterexample to the half-open sampling claim: with `fc = 1`,
`mpp = 2`, the second sample of the carrier time grid is `1 = 1/fc` — the
endpoint is INCLUDED (NumPy's `linspace` default), and it differs from the
claimed position `j/(fc·mpp) = 1/2`. -/
theorem C6_sampling_endpoint_included :
    (t_periodo 1 2).getD 1 0 = 1 ∧ ((1 : ℝ) ≠ 1 / (1 * 2)) := by
  constructor
  · rw [t_periodo, linspace_getD 0 (1 / 1) 2 1 (by norm_num)]
    norm_num
  · norm_num

/-- C6 amended: for `fc > 0` and `mpp ≥ 2` the carrier time grid has
exactly `mpp` uniformly spaced samples, but over the CLOSED interval
`[0, 1/fc]`: sample `j` sits at `j/(fc·(mpp−1))` and the last sample is
exactly the endpoint `1/fc`. -/
theorem C6_sampling_amended (fc : ℝ) (mpp : ℕ) (hfc : 0 < fc) (hmpp : 2 ≤ mpp) :
    (t_periodo fc mpp).length = mpp ∧
    (∀ j, j < mpp →
      (t_periodo fc mpp).getD j 0 = j / (fc * ((mpp : ℝ) - 1))) ∧
    (t_periodo fc mpp).getD (mpp - 1) 0 = 1 / fc := by
  have hfc0 : fc ≠ 0 := ne_of_gt hfc
  have hcast : (2 : ℝ) ≤ (mpp : ℝ) := by exact_mod_cast hmpp
  have hm1 : ((mpp : ℝ) - 1) ≠ 0 := by linarith
  refine ⟨t_periodo_length fc mpp, ?_, ?_⟩
  · intro j hj
    rw [t_periodo, linspace_getD _ _ _ _ hj]
    field_simp
  · rw [t_periodo, linspace_getD _ _ _ _ (by omega)]
    have hsub : ((mpp - 1 : ℕ) : ℝ) = (mpp : ℝ) - 1 := by
      rw [Nat.cast_sub (by omega)]
      norm_num
    rw [hsub]
    field_simp
    ring

/-- Closed witness for `C6_sampling_amended`. -/
theorem C6_sampling_amended_witness :
    (t_periodo 1 2).length = 2 :=
  (C6_sampling_amended 1 2 (by norm_num) (by norm_num)).1

/-- C5: the channel derives the noise power as `Pn = Pm / 10^(SNR/10)`,
adds to each waveform sample the noise sample `sqrt(Pn) · g k` (one
independent unit draw `g k` per sample, hence zero-mean with variance
`Pn`), and returns a waveform of exactly the input's length. -/
theorem C5_canal_ruidoso_spec (senal_Tx : List ℝ) (Pm SNR : ℝ) (g : ℕ → ℝ) :
    (canal_ruidoso senal_Tx Pm SNR g).length = senal_Tx.length ∧
    ∀ k, k < senal_Tx.length →
      (canal_ruidoso senal_Tx Pm SNR g).getD k 0 =
        senal_Tx.getD k 0 + Real.sqrt (Pm / (10 : ℝ) ^ (SNR / 10)) * g k := by
  constructor
  · simp [canal_ruidoso]
  · intro k hk
    unfold canal_ruidoso
    rw [getD_zipWith_add _ _ _ hk (by simpa)]
    rw [getD_map _ _ _ (by simpa) 0, getD_range _ _ hk]

/-- Closed witness for `C5_canal_ruidoso_spec`. -/
theorem C5_canal_ruidoso_spec_witness :
    (canal_ruidoso [(3 : ℝ)] 4 0 fun _ => 1).getD 0 0
      = (3 : ℝ) + Real.sqrt (4 / (10 : ℝ) ^ ((0 : ℝ) / 10)) * 1 :=
  (C5_canal_ruidoso_spec [(3 : ℝ)] 4 0 (fun _ => 1)).2 0 (by norm_num)

/-- C4: the BPSK demodulator decides bit `i` by the sign of the inner
product `Ep` of the `i`-th `mpp`-sample segment with the reference
carrier: the recovered bit is 1 iff `Ep > 0`, it is 0 iff `Ep ≤ 0`, and in
particular the exact tie `Ep = 0` decides 0. -/
theorem C4_energy_decision_rule (senal_Rx portadora : List ℝ) (mpp i : ℕ)
    (hi : i < senal_Rx.length / mpp) :
    ((demodulador senal_Rx portadora mpp).getD i 2 = 1 ↔
      0 < Ep senal_Rx portadora mpp i) ∧
    ((demodulador senal_Rx portadora mpp).getD i 2 = 0 ↔
      ¬ 0 < Ep senal_Rx portadora mpp i) ∧
    (Ep senal_Rx portadora mpp i = 0 →
      (demodulador senal_Rx portadora mpp).getD i 2 = 0) := by
  have hval : (demodulador senal_Rx portadora mpp).getD i 2
      = if 0 < Ep senal_Rx portadora mpp i then 1 else 0 := by
    unfold demodulador
    rw [getD_map _ _ _ (by simpa) 0, getD_range _ _ hi]
  rw [hval]
  refine ⟨?_, ?_, ?_⟩
  · split_ifs with h <;> simp [h]
  · split_ifs with h <;> simp [h]
  · intro h0
    split_ifs with h
    · rw [h0] at h
      exact absurd h (lt_irrefl 0)
    · rfl

/-- Closed witness for `C4_energy_decision_rule`. -/
theorem C4_energy_decision_rule_witness :
    (demodulador [(1 : ℝ), 1] [1, 1] 2).getD 0 2 = 1 := by
  have h := C4_energy_decision_rule [(1 : ℝ), 1] [1, 1] 2 0 (by norm_num)
  apply h.1.mpr
  unfold Ep
  rw [Finset.sum_range_succ, Finset.sum_range_succ]
  norm_num

lemma length_flatMap_const {α : Type} (l : List α) (f : α → List ℝ) (m : ℕ)
    (hf : ∀ a, (f a).length = m) : (l.flatMap f).length = l.length * m := by
  induction l with
  | nil => simp
  | cons a l ih =>
    rw [List.flatMap_cons, List.length_append, hf, ih, List.length_cons]
    ring

lemma getD_flatMap_const {α : Type} (l : List α) (f : α → List ℝ) (m : ℕ)
    (hf : ∀ a, (f a).length = m) :
    ∀ (i r : ℕ) (hi : i < l.length), r < m →
      (l.flatMap f).getD (i * m + r) 0 = (f (l.get ⟨i, hi⟩)).getD r 0 := by
  induction l with
  | nil => intro i r hi _; simp at hi
  | cons a l ih =>
    intro i r hi hr
    rw [List.flatMap_cons]
    cases i with
    | zero =>
      have hget : (a :: l).get ⟨0, hi⟩ = a := rfl
      rw [hget, Nat.zero_mul, Nat.zero_add,
        List.getD_eq_getElem?_getD, List.getD_eq_getElem?_getD,
        List.getElem?_append, if_pos (by rw [hf]; exact hr)]
    | succ i =>
      have hi2 : i < l.length := by simpa using hi
      have hidx : (i + 1) * m + r = m + (i * m + r) := by ring
      have hget : (a :: l).get ⟨i + 1, hi⟩ = l.get ⟨i, hi2⟩ := rfl
      rw [hget, hidx, List.getD_eq_getElem?_getD,
        List.getElem?_append, if_neg (by rw [hf]; omega), hf,
        Nat.add_sub_cancel_left, ← List.getD_eq_getElem?_getD,
        ih i r hi2 hr]

lemma modulador_senal_Tx (bits : List ℕ) (fc : ℝ) (mpp : ℕ) :
    (modulador bits fc mpp).1 = bits.flatMap fun bit =>
      if bit = 1 then portadora fc mpp
      else (portadora fc mpp).map fun x => x * (-1) := rfl

lemma modulador_portadora (bits : List ℕ) (fc : ℝ) (mpp : ℕ) :
    (modulador bits fc mpp).2.2.1 = portadora fc mpp := rfl

lemma bpskBlock_length (fc : ℝ) (mpp : ℕ) : ∀ b : ℕ,
    (if b = 1 then portadora fc mpp
     else (portadora fc mpp).map fun x => x * (-1)).length = mpp := by
  intro b
  split_ifs
  · exact portadora_length fc mpp
  · rw [List.length_map]; exact portadora_length fc mpp

lemma bpskBlock_getD (fc : ℝ) (mpp : ℕ) (b r : ℕ) (hr : r < mpp) :
    (if b = 1 then portadora fc mpp
     else (portadora fc mpp).map fun x => x * (-1)).getD r 0
      = (if b = 1 then 1 else -1) * (portadora fc mpp).getD r 0 := by
  split_ifs
  · rw [one_mul]
  · rw [getD_map _ _ _ (by rw [portadora_length]; exact hr) 0]
    ring

lemma zipWith_add_replicate_zero (l : List ℝ) :
    List.zipWith (· + ·) l (List.replicate l.length 0) = l := by
  induction l with
  | nil => rfl
  | cons a l ih => simp [List.replicate_succ, ih]

lemma canal_ruidoso_zero (s : List ℝ) (Pm SNR : ℝ) :
    canal_ruidoso s Pm SNR (fun _ => 0) = s := by
  show List.zipWith (· + ·) s
    ((List.range s.length).map fun k =>
      Real.sqrt (Pm / (10 : ℝ) ^ (SNR / 10)) * (fun _ : ℕ => (0 : ℝ)) k) = s
  simp only [mul_zero]
  rw [List.map_const', List.length_range, zipWith_add_replicate_zero]

lemma Ep_of_bpsk (bits : List ℕ) (fc : ℝ) (mpp i : ℕ)
    (hi : i < bits.length) :
    Ep (modulador bits fc mpp).1 (portadora fc mpp) mpp i
      = (if bits.get ⟨i, hi⟩ = 1 then 1 else -1)
        * ∑ r ∈ Finset.range mpp, ((portadora fc mpp).getD r 0) ^ 2 := by
  unfold Ep
  rw [Finset.mul_sum]
  apply Finset.sum_congr rfl
  intro r hr
  have hr2 : r < mpp := Finset.mem_range.mp hr
  rw [modulador_senal_Tx,
    getD_flatMap_const bits _ mpp (bpskBlock_length fc mpp) i r hi hr2,
    bpskBlock_getD fc mpp _ r hr2]
  ring

lemma Es_pos (fc : ℝ) (mpp : ℕ) (hfc : 0 < fc) (hmpp : 4 ≤ mpp) :
    0 < ∑ r ∈ Finset.range mpp, ((portadora fc mpp).getD r 0) ^ 2 := by
  have hmem : (1 : ℕ) ∈ Finset.range mpp := Finset.mem_range.mpr (by omega)
  have hsum : ((portadora fc mpp).getD 1 0) ^ 2
      ≤ ∑ r ∈ Finset.range mpp, ((portadora fc mpp).getD r 0) ^ 2 :=
    Finset.single_le_sum
      (fun r _ => sq_nonneg ((portadora fc mpp).getD r 0)) hmem
  have hfc0 : fc ≠ 0 := ne_of_gt hfc
  have hm4 : (4 : ℝ) ≤ (mpp : ℝ) := by exact_mod_cast hmpp
  have hm1 : (0 : ℝ) < (mpp : ℝ) - 1 := by linarith
  have hval : (portadora fc mpp).getD 1 0
      = Real.sin (2 * Real.pi / ((mpp : ℝ) - 1)) := by
    rw [portadora_getD fc mpp 1 (by omega)]
    congr 1
    field_simp
    ring
  have hpos : 0 < 2 * Real.pi / ((mpp : ℝ) - 1) :=
    div_pos (by positivity) hm1
  have hlt : 2 * Real.pi / ((mpp : ℝ) - 1) < Real.pi := by
    rw [div_lt_iff₀ hm1]
    nlinarith [Real.pi_pos]
  have hsin : 0 < Real.sin (2 * Real.pi / ((mpp : ℝ) - 1)) :=
    Real.sin_pos_of_pos_of_lt_pi hpos hlt
  calc (0 : ℝ) < (Real.sin (2 * Real.pi / ((mpp : ℝ) - 1))) ^ 2 := by positivity
    _ = ((portadora fc mpp).getD 1 0) ^ 2 := by rw [hval]
    _ ≤ _ := hsum

/-- C2 counterexample at `mpp = 2`: the carrier samples are
`sin 0 = 0` and `sin 2π = 0`, so the transmitted waveform for `bits = [1]`
is identically zero, every inner product `Ep` is 0, and the zero-noise
round trip returns `[0]`, not the original `[1]`. -/
theorem C2_roundtrip_fails_mpp2 :
    demodulador (canal_ruidoso (modulador [1] 1 2).1 1 0 fun _ => 0)
      (modulador [1] 1 2).2.2.1 2 = [0] ∧ ([0] : List ℕ) ≠ [1] := by
  have hport : portadora 1 2 = [0, 0] := by
    unfold portadora t_periodo linspace
    simp [List.range_succ]
    norm_num [Real.sin_two_pi]
  constructor
  · rw [canal_ruidoso_zero, modulador_portadora, modulador_senal_Tx]
    simp only [List.flatMap_cons, List.flatMap_nil, List.append_nil,
      if_pos rfl, hport]
    unfold demodulador Ep
    norm_num [Finset.sum_range_succ]
  · decide

/-- C2 amended: the BPSK zero-noise round trip recovers every binary bit
sequence exactly, for every `fc > 0` and every `mpp ≥ 4`.  (For
`mpp ∈ {2, 3}` the endpoint-included sampling makes every carrier sample
`sin` of a multiple of `π`, i.e. the carrier is identically zero, every
`Ep` is 0 and every bit demodulates to 0, so the claim fails there —
see the `mpp = 2` counterexample.) -/
theorem C2_roundtrip_zero_noise (bits : List ℕ) (fc : ℝ) (mpp : ℕ)
    (Pm SNR : ℝ) (hbits : ∀ b ∈ bits, b = 0 ∨ b = 1)
    (hfc : 0 < fc) (hmpp : 4 ≤ mpp) :
    demodulador (canal_ruidoso (modulador bits fc mpp).1 Pm SNR fun _ => 0)
      (modulador bits fc mpp).2.2.1 mpp = bits := by
  rw [canal_ruidoso_zero, modulador_portadora]
  have hmpp0 : 0 < mpp := by omega
  have hslen : (modulador bits fc mpp).1.length = bits.length * mpp := by
    rw [modulador_senal_Tx]
    exact length_flatMap_const _ _ mpp (bpskBlock_length fc mpp)
  have hN : (modulador bits fc mpp).1.length / mpp = bits.length := by
    rw [hslen, Nat.mul_div_cancel _ hmpp0]
  have hlen : (demodulador (modulador bits fc mpp).1 (portadora fc mpp) mpp).length
      = bits.length := by
    unfold demodulador
    rw [List.length_map, List.length_range, hN]
  apply List.ext_getElem hlen
  intro i h1 h2
  have hval : (demodulador (modulador bits fc mpp).1 (portadora fc mpp) mpp)[i]
      = if 0 < Ep (modulador bits fc mpp).1 (portadora fc mpp) mpp i
        then 1 else 0 := by
    simp [demodulador]
  rw [hval, Ep_of_bpsk bits fc mpp i h2]
  have hEs := Es_pos fc mpp hfc hmpp
  have hget : bits.get ⟨i, h2⟩ = bits[i] := rfl
  rw [hget]
  rcases hbits bits[i] (List.getElem_mem h2) with hb | hb
  · rw [hb]
    rw [if_neg (by norm_num : ¬ (0 : ℕ) = 1)]
    rw [if_neg (not_lt.mpr (by nlinarith :
      (-1 : ℝ) * ∑ r ∈ Finset.range mpp,
        ((portadora fc mpp).getD r 0) ^ 2 ≤ 0))]
  · rw [hb]
    rw [if_pos (rfl : (1 : ℕ) = 1), one_mul, if_pos hEs]

/-- Closed witness for `C2_roundtrip_zero_noise` at
`bits = [1, 0]`, `fc = 1`, `mpp = 4`. -/
theorem C2_roundtrip_zero_noise_witness :
    demodulador (canal_ruidoso (modulador [1, 0] 1 4).1 1 0 fun _ => 0)
      (modulador [1, 0] 1 4).2.2.1 4 = [1, 0] :=
  C2_roundtrip_zero_noise [1, 0] 1 4 1 0 (by decide) (by norm_num) (by norm_num)

/-- C3: the 16-QAM symbol block is NOT the sample-wise superposition
`I·cos + Q·sin`: for the symbol `0000` (branch amplitudes `(I, Q) = (-3, 3)`)
with `fc = 1`, `mpp = 2`, the sample at index `4 = 2·mpp` (start of the
third sub-block) is `Q·sin`-only and equals 0, whereas the superposition
`I·cos + Q·sin` at the corresponding carrier position equals `-3`. -/
theorem C3_symbol_block_not_superposed :
    (senal_Tx_16QAM [0, 0, 0, 0] 1 2).getD 4 0 = 0 ∧
    qamBranch 0 0 0 0 = (-3, 3) ∧
    (-3 : ℝ) * (portadora_cos 1 2).getD 0 0
      + (3 : ℝ) * (portadora_sen 1 2).getD 0 0 = -3 ∧
    ((0 : ℝ) ≠ -3) := by
  have hcos : portadora_cos 1 2 = [1, 1] := by
    unfold portadora_cos t_periodo linspace
    simp [List.range_succ]
    norm_num [Real.cos_two_pi]
  have hsen : portadora_sen 1 2 = [0, 0] := by
    unfold portadora_sen t_periodo linspace
    simp [List.range_succ]
    norm_num [Real.sin_two_pi]
  refine ⟨?_, by decide, ?_, by norm_num⟩
  · unfold senal_Tx_16QAM chunk4 qamSymbolWave
    simp only [List.flatMap_cons, List.flatMap_nil, List.append_nil, hcos, hsen]
    norm_num [qamBranch, List.getD]
  · rw [hcos, hsen]
    norm_num [List.getD]

end P4
